import Mathlib

/-!
# Verification of the `prun` parameter-sweep runner

Shallow embedding of `src/main.rs` (the only source file of the repository).
The embedded parts are:

* the data model `Task` / `Argument` / `RangeObject` (main.rs lines 35-167);
* the expansion algorithm `Task::to_concreate_tasks` and its inner recursive
  closure `p` (main.rs lines 42-136);
* the worker-pool size computation `n` (main.rs lines 207-210);
* the worker loop's queue interaction (main.rs lines 248-252), modelled as an
  interleaving step relation on a pool state;
* the worker loop's spawn/wait behaviour (main.rs lines 258-260), modelled
  with an explicit error channel for the OS-level spawn/wait outcome.

Modelling conventions:

* Rust `i32` values are carried as `Int`.  Overflow of the loop's `c += step`
  (main.rs line 94) matters for universally quantified claims, so the
  development has two cursor models: `rangeVals` computes with unbounded
  integers, and `rangeValsWrap` applies two's-complement wrap-around at 32
  bits (`wrap32`) — the release-build semantics of an overflowing `c += step`;
  a debug build panics there instead, producing no result either.  Theorems
  quantifying over all tasks carry an `argsInBounds` hypothesis (range fields
  representable in `i32`, and no addition the loop performs leaves `i32`);
  under it the two models agree (`pWrap_eq_p`), and both agree with the
  source program in either build mode because no addition overflows.
* The `RangeObject::Float` variant (main.rs lines 97-119, 156-161) is not
  embedded: IEEE-754 arithmetic has no faithful shallow embedding here.  The
  structure of the Float branch is identical to the Int branch; all claims are
  settled on the Int branch.
* The source's `while c <= to` loop can diverge (for `step <= 0` with
  `from <= to`), so the embedded loop takes a fuel parameter and returns
  `none` exactly when the loop does not finish within `fuel` iterations;
  divergence of the source is the statement "`none` for every fuel".
* The source's `p` pushes finished invocations into a mutable `res` vector in
  depth-first order; the embedding returns the list of invocations that the
  call appends, in the same order.
-/

namespace PRun

/-- Field `prefix` of `RangeObject` (main.rs lines 154, 160): `Option String`.
Source field names `from`/`to`/`step`/`prefix` become `lo`/`hi`/`step`/`pre`
(`from` is a Lean keyword).  Only the `Int` variant is embedded (see header).
The source fields are `i32` (main.rs lines 150-153): they are carried as
`Int`, and every theorem that quantifies over range values either restricts
them to representable, non-overflowing ranges via `argsInBounds` or works at
concrete overflow-free inputs. -/
inductive RangeObject where
  | int (lo hi step : Int) (pre : Option String)
deriving DecidableEq, Repr

/-- The `Argument` enum of main.rs lines 139-145. -/
inductive Argument where
  | static (value : String)
  | range (r : RangeObject)
  | choice (values : List String)
deriving DecidableEq, Repr

/-- The `Task` struct of main.rs lines 35-39: a command plus ordered arguments. -/
structure Task where
  command : String
  args : List Argument
deriving DecidableEq, Repr

/-- The `Cmd` struct of main.rs lines 164-167: a concrete invocation.  The
Rust `Command` value is represented by its program name and argv tokens
(`Stdio::piped` configuration carries no data relevant to any claim). -/
structure Cmd where
  program : String
  args : List String
  name : String
deriving DecidableEq, Repr

/-- The cursor sequence of the integer-range `while` loop (main.rs lines
80-95): starting at `c = lo`, while `c ≤ hi` emit `c` and step `c := c + step`.
`fuel` bounds the number of loop iterations; `none` means the loop did not
finish within `fuel` iterations (so "`none` for every fuel" is divergence). -/
def rangeVals (fuel : Nat) (c hi step : Int) : Option (List Int) :=
  if c ≤ hi then
    match fuel with
    | 0 => none
    | fuel' + 1 => (rangeVals fuel' (c + step) hi step).map fun l => c :: l
  else some []

/-- Number of iterations of the range loop when it terminates: the spec's
cardinality formula `floor((to−from)/step)+1` when `step>0 ∧ from≤to`,
else `0` (Nat division is floor division; the operands are nonnegative). -/
def rangeLen (lo hi step : Int) : Nat :=
  if lo ≤ hi ∧ 0 < step then (hi - lo).toNat / step.toNat + 1 else 0

/-- Closed form of the value list produced by a terminating range loop. -/
def rangeList (lo hi step : Int) : List Int :=
  (List.range (rangeLen lo hi step)).map fun (i : Nat) => lo + step * (i : Int)

/-- Sequencing of expansion sub-results: the source pushes each branch's
results into the shared `res` vector in order; a `none` (diverging) branch
makes the whole expansion diverge. -/
def seqConcat {α : Type} : List (Option (List α)) → Option (List α)
  | [] => some []
  | o :: os => o.bind fun l => (seqConcat os).map fun ls => l ++ ls

/-- List concat-map, written out to keep the development self-contained. -/
def concatMap {α β : Type} (f : α → List β) : List α → List β
  | [] => []
  | x :: xs => f x ++ concatMap f xs

/-- The inner recursive function `p` of `Task::to_concreate_tasks` (main.rs
lines 45-122).  `so_far` is the accumulated argv token list, `so_far_name`
the accumulated display name; the result is the list of
`(token list, display name)` pairs the call emits, in depth-first order.

Faithful to the source:
* `Static` pushes its value onto `so_far` and leaves `so_far_name` unchanged
  (lines 57-60);
* `Choice` branches per option, appending the option to both the tokens and
  (space-separated) the name (lines 61-72);
* integer `Range` iterates the loop cursor, the argv token is
  `prefix.unwrap_or("") ++ toString c` while the name receives only
  `" " ++ toString c` — without the prefix (lines 80-95). -/
def p (fuel : Nat) : List Argument → List String → String →
    Option (List (List String × String))
  | [], so_far, so_far_name => some [(so_far, so_far_name)]
  | .static s :: rest, so_far, so_far_name =>
    p fuel rest (so_far ++ [s]) so_far_name
  | .choice opts :: rest, so_far, so_far_name =>
    seqConcat (opts.map fun opt =>
      p fuel rest (so_far ++ [opt]) ((so_far_name ++ " ") ++ opt))
  | .range (.int lo hi step pre) :: rest, so_far, so_far_name =>
    match rangeVals fuel lo hi step with
    | none => none
    | some vs =>
      seqConcat (vs.map fun c =>
        p fuel rest (so_far ++ [pre.getD "" ++ toString c])
          ((so_far_name ++ " ") ++ toString c))

/-- `Task::to_concreate_tasks` (main.rs lines 42-136): run `p` on the task's
arguments with empty tokens and the task name, then wrap each result into a
`Cmd` built from the task's command. -/
def Task.to_concreate_tasks (t : Task) (name : String) (fuel : Nat) :
    Option (List Cmd) :=
  (p fuel t.args [] name).map fun res =>
    res.map fun pr => { program := t.command, args := pr.1, name := pr.2 }

/-- `expandsToCount t name k`: the expansion of `t` terminates (some fuel
suffices) and yields exactly `k` concrete invocations. -/
def expandsToCount (t : Task) (name : String) (k : Nat) : Prop :=
  ∃ fuel l, t.to_concreate_tasks name fuel = some l ∧ l.length = k

/-- `i32::MIN` (the source's range fields and loop cursor are `i32`,
main.rs lines 80-95 and 150-153). -/
def i32Min : Int := -2147483648

/-- `i32::MAX`. -/
def i32Max : Int := 2147483647

/-- Two's-complement wrap-around of an integer into the `i32` range: the
value an overflowing `c += step` leaves behind in a release build (a debug
build panics there instead, producing no result at all). -/
def wrap32 (x : Int) : Int := (x + 2147483648) % 4294967296 - 2147483648

/-- `x` is representable as an `i32`. -/
def inI32 (x : Int) : Bool := decide (i32Min ≤ x ∧ x ≤ i32Max)

/-- The range-loop cursor with release-build `i32` semantics: identical to
`rangeVals` except that every `c += step` wraps at 32 bits. -/
def rangeValsWrap (fuel : Nat) (c hi step : Int) : Option (List Int) :=
  if c ≤ hi then
    match fuel with
    | 0 => none
    | fuel' + 1 =>
      (rangeValsWrap fuel' (wrap32 (c + step)) hi step).map fun l => c :: l
  else some []

/-- The expander `p` with the `i32`-wrapping cursor model: identical to `p`
except that the range branch iterates `rangeValsWrap`. -/
def pWrap (fuel : Nat) : List Argument → List String → String →
    Option (List (List String × String))
  | [], so_far, so_far_name => some [(so_far, so_far_name)]
  | .static s :: rest, so_far, so_far_name =>
    pWrap fuel rest (so_far ++ [s]) so_far_name
  | .choice opts :: rest, so_far, so_far_name =>
    seqConcat (opts.map fun opt =>
      pWrap fuel rest (so_far ++ [opt]) ((so_far_name ++ " ") ++ opt))
  | .range (.int lo hi step pre) :: rest, so_far, so_far_name =>
    match rangeValsWrap fuel lo hi step with
    | none => none
    | some vs =>
      seqConcat (vs.map fun c =>
        pWrap fuel rest (so_far ++ [pre.getD "" ++ toString c])
          ((so_far_name ++ " ") ++ toString c))

/-- `Task.to_concreate_tasks` over the `i32`-wrapping cursor model. -/
def Task.to_concreate_tasksWrap (t : Task) (name : String) (fuel : Nat) :
    Option (List Cmd) :=
  (pWrap fuel t.args [] name).map fun res =>
    res.map fun pr => { program := t.command, args := pr.1, name := pr.2 }

/-- The `i32` (release-semantics) expansion of `t` terminates and yields a
result list. -/
def expandsWrap (t : Task) (name : String) : Prop :=
  ∃ fuel l, t.to_concreate_tasksWrap name fuel = some l

/-- No addition the range loop performs leaves `i32`: the fields are
representable and, when the loop body runs (`from ≤ to`), the final
increment `from + step * rangeLen` — the largest value an ascending cursor
reaches — still fits in `i32` (the lower bound is automatic for an
ascending cursor). -/
def argInBounds : Argument → Bool
  | .range (.int lo hi step _) =>
    inI32 lo && inI32 hi && inI32 step &&
      (decide (hi < lo) ||
        decide (lo + step * (rangeLen lo hi step : Int) ≤ i32Max))
  | _ => true

/-- `argInBounds` for every argument of a list. -/
def argsInBounds : List Argument → Bool
  | [] => true
  | a :: rest => argInBounds a && argsInBounds rest

/-- Fuel needed by one argument: the iteration count of its range loop. -/
def argFuel : Argument → Nat
  | .range (.int lo hi step _) => rangeLen lo hi step
  | _ => 0

/-- Fuel sufficient for the whole argument list (`p` hands the same fuel to
every range loop, so the maximum suffices). -/
def needFuel : List Argument → Nat
  | [] => 0
  | a :: rest => max (argFuel a) (needFuel rest)

/-- Every integer range argument terminates its loop: `step > 0` or
`to < from` (the spec's Range-step invariant, §3). -/
def rangesOk : List Argument → Bool
  | [] => true
  | .range (.int lo hi step _) :: rest =>
    (decide (0 < step) || decide (hi < lo)) && rangesOk rest
  | _ :: rest => rangesOk rest

/-- `allStatic args = true` iff every argument is `Static`. -/
def allStatic : List Argument → Bool
  | [] => true
  | .static _ :: rest => allStatic rest
  | _ :: _ => false

/-- The literal values of the `Static` arguments, in order. -/
def staticVals : List Argument → List String
  | [] => []
  | .static s :: rest => s :: staticVals rest
  | _ :: rest => staticVals rest

/-- The spec's per-argument cardinality (§3): `Static → 1`,
`Choice → len(values)`, `Range → floor((to−from)/step)+1` when
`step>0 ∧ from≤to`, else `0`. -/
def cardinality : Argument → Nat
  | .static _ => 1
  | .choice opts => opts.length
  | .range (.int lo hi step _) => rangeLen lo hi step

/-- Product of the argument cardinalities of a task's argument list. -/
def taskCard : List Argument → Nat
  | [] => 1
  | a :: rest => cardinality a * taskCard rest

/-- Expansion shape derived from the source `p`: the tokens and display-name
suffix each invocation receives.  The name suffix records `Choice` values and
the bare numeric rendering of `Range` values (no `Static` value and no
`Range` prefix ever enters the name), space-separated, in argument order —
exactly as `p` builds `so_far` and `so_far_name`. -/
def expSpec : List Argument → List (List String × String)
  | [] => [([], "")]
  | .static s :: rest => (expSpec rest).map fun pr => (s :: pr.1, pr.2)
  | .choice opts :: rest =>
    concatMap (fun opt => (expSpec rest).map fun pr =>
      (opt :: pr.1, (" " ++ opt) ++ pr.2)) opts
  | .range (.int lo hi step pre) :: rest =>
    concatMap (fun c => (expSpec rest).map fun pr =>
      ((pre.getD "" ++ toString c) :: pr.1, (" " ++ toString c) ++ pr.2))
      (rangeList lo hi step)

/-- The worker-pool size computation of main.rs lines 207-210:
`opt.num_threads.unwrap_or(num_cpus::get() / 2).min(tasks.len())`. -/
def workerCount (num_threads : Option Nat) (numCpus : Nat) (queueLen : Nat) :
    Nat :=
  (num_threads.getD (numCpus / 2)).min queueLen

/-- State of the worker pool's shared queue interaction (main.rs lines
236-252): the mutex-guarded `VecDeque` of remaining invocations, plus, for
each worker, the list of invocations it has popped so far (in pop order). -/
structure PoolState where
  queue : List Cmd
  popped : List (List Cmd)
deriving DecidableEq, Repr

/-- One atomic queue interaction by worker `i` (main.rs lines 249-251:
`tasks.lock()` / `pop_front()` / `drop(lock)`): under the mutex the worker
removes the front element, if any, and owns it.  A scheduler index with no
worker, or an empty queue, changes nothing.  The mutex makes the
lock/pop/unlock sequence atomic, which is exactly what a single step models;
the interleaving of steps across workers is the scheduler's choice. -/
def poolStep (s : PoolState) (i : Nat) : PoolState :=
  match s.queue with
  | [] => s
  | c :: rest =>
    if i < s.popped.length then
      { queue := rest, popped := s.popped.set i (s.popped.getD i [] ++ [c]) }
    else s

/-- Run the pool under an arbitrary interleaving: `sched` lists which worker
acquires the queue mutex at each point in time. -/
def runPool (s : PoolState) (sched : List Nat) : PoolState :=
  sched.foldl poolStep s

/-- The pool's initial state: the queue is fully populated before the `n`
workers start (main.rs lines 198-236), and no worker has popped anything. -/
def initPool (q : List Cmd) (n : Nat) : PoolState :=
  ⟨q, List.replicate n []⟩

/-- One worker's sequential run over the invocations it receives (main.rs
lines 248-281).  `spawn` abstracts the OS outcome of
`command.spawn()` / `child.wait()` for one invocation: `.ok d` is a measured
duration `d`, `.error e` is a spawn or wait failure.  The source calls
`.unwrap()` on both (lines 258, 260), so a failure panics the worker thread:
the model stops with `.error e`, recording nothing for the failed invocation
and never reaching the remaining queue entries.  On success the worker
appends `(name, duration)` to its result records and continues. -/
def workerRun (spawn : Cmd → Except String Nat) :
    List Cmd → List (String × Nat) → Except String (List (String × Nat))
  | [], acc => .ok acc
  | c :: rest, acc =>
    match spawn c with
    | .ok d => workerRun spawn rest (acc ++ [(c.name, d)])
    | .error e => .error e

/-! ## Range-loop lemmas -/

theorem rangeLen_pos_of_le {lo hi step : Int} (hle : lo ≤ hi) (hstep : 0 < step) :
    0 < rangeLen lo hi step := by
  simp [rangeLen, hle, hstep]

theorem rangeLen_succ {lo hi step : Int} (hstep : 0 < step) (hle : lo ≤ hi) :
    rangeLen lo hi step = rangeLen (lo + step) hi step + 1 := by
  unfold rangeLen
  by_cases h2 : lo + step ≤ hi
  · rw [if_pos ⟨hle, hstep⟩, if_pos ⟨h2, hstep⟩]
    have hs : 0 < step.toNat := by omega
    have hsa : step.toNat ≤ (hi - lo).toNat := by omega
    have hsub : (hi - (lo + step)).toNat = (hi - lo).toNat - step.toNat := by omega
    rw [hsub, ← Nat.div_eq_sub_div hs hsa]
  · rw [if_pos ⟨hle, hstep⟩, if_neg (fun hc => h2 hc.1)]
    have hlt : (hi - lo).toNat < step.toNat := by omega
    rw [Nat.div_eq_of_lt hlt]

theorem rangeList_cons {lo hi step : Int} (hstep : 0 < step) (hle : lo ≤ hi) :
    rangeList lo hi step = lo :: rangeList (lo + step) hi step := by
  rw [rangeList, rangeList, rangeLen_succ hstep hle, List.range_succ_eq_map,
    List.map_cons, List.map_map]
  congr 1
  · simp
  · apply List.map_congr_left
    intro i _
    simp only [Function.comp_apply]
    push_cast
    ring

theorem rangeList_of_not_le {lo hi step : Int} (h : ¬ lo ≤ hi) :
    rangeList lo hi step = [] := by
  simp [rangeList, rangeLen, h]

theorem rangeVals_of_not_le {fuel : Nat} {lo hi step : Int} (h : ¬ lo ≤ hi) :
    rangeVals fuel lo hi step = some [] := by
  rw [rangeVals.eq_def, if_neg h]

/-- With at least `rangeLen` fuel, the loop with positive step terminates and
produces exactly the closed-form value list. -/
theorem rangeVals_eq {hi step : Int} (hstep : 0 < step) :
    ∀ (fuel : Nat) (lo : Int), rangeLen lo hi step ≤ fuel →
      rangeVals fuel lo hi step = some (rangeList lo hi step) := by
  intro fuel
  induction fuel with
  | zero =>
    intro lo h
    by_cases hle : lo ≤ hi
    · have := rangeLen_pos_of_le hle hstep
      omega
    · rw [rangeVals_of_not_le hle, rangeList_of_not_le hle]
  | succ fuel ih =>
    intro lo h
    by_cases hle : lo ≤ hi
    · rw [rangeVals.eq_def, if_pos hle]
      have hrec : rangeLen (lo + step) hi step ≤ fuel := by
        have := rangeLen_succ hstep hle
        omega
      show Option.map (fun l => lo :: l) (rangeVals fuel (lo + step) hi step) =
        some (rangeList lo hi step)
      rw [ih (lo + step) hrec]
      rw [rangeList_cons hstep hle]
      rfl
    · rw [rangeVals_of_not_le hle, rangeList_of_not_le hle]

/-- The range loop with nonpositive step and `lo ≤ hi` never terminates:
no amount of fuel completes it (main.rs lines 80-95 loop forever). -/
theorem rangeVals_none {step : Int} (hstep : step ≤ 0) :
    ∀ (fuel : Nat) (lo hi : Int), lo ≤ hi → rangeVals fuel lo hi step = none := by
  intro fuel
  induction fuel with
  | zero =>
    intro lo hi hle
    rw [rangeVals.eq_def, if_pos hle]
  | succ fuel ih =>
    intro lo hi hle
    rw [rangeVals.eq_def, if_pos hle]
    show Option.map (fun l => lo :: l) (rangeVals fuel (lo + step) hi step) = none
    rw [ih (lo + step) hi (by omega)]
    rfl

/-- Terminating ranges (`0 < step` or `hi < lo`) produce the closed-form list
whenever the fuel covers the iteration count. -/
theorem rangeVals_eq_of_ok {fuel : Nat} {lo hi step : Int}
    (h : 0 < step ∨ hi < lo) (hf : rangeLen lo hi step ≤ fuel) :
    rangeVals fuel lo hi step = some (rangeList lo hi step) := by
  rcases h with hstep | hlt
  · exact rangeVals_eq hstep fuel lo hf
  · have hle : ¬ lo ≤ hi := by omega
    rw [rangeVals_of_not_le hle, rangeList_of_not_le hle]

theorem rangeList_length (lo hi step : Int) :
    (rangeList lo hi step).length = rangeLen lo hi step := by
  simp [rangeList]

/-! ## i32 wrap-model lemmas -/

theorem wrap32_eq_self {x : Int} (hmin : i32Min ≤ x) (hmax : x ≤ i32Max) :
    wrap32 x = x := by
  unfold wrap32
  unfold i32Min at hmin
  unfold i32Max at hmax
  omega

theorem wrap32_le_max (x : Int) : wrap32 x ≤ i32Max := by
  unfold wrap32 i32Max
  omega

theorem rangeValsWrap_of_not_le {fuel : Nat} {lo hi step : Int}
    (h : ¬ lo ≤ hi) : rangeValsWrap fuel lo hi step = some [] := by
  rw [rangeValsWrap.eq_def, if_neg h]

/-- Under the no-overflow bound the wrapping cursor never actually wraps,
so the `i32` model agrees with the unbounded model at every fuel. -/
theorem rangeValsWrap_eq (hi step : Int) (hstep : 0 < step) :
    ∀ (fuel : Nat) (c : Int), i32Min ≤ c →
      c + step * (rangeLen c hi step : Int) ≤ i32Max →
      rangeValsWrap fuel c hi step = rangeVals fuel c hi step := by
  intro fuel
  induction fuel with
  | zero =>
    intro c _ _
    by_cases hle : c ≤ hi
    · rw [rangeValsWrap.eq_def, rangeVals.eq_def, if_pos hle]
    · rw [rangeValsWrap_of_not_le hle, rangeVals_of_not_le hle]
  | succ fuel ih =>
    intro c hmin hexit
    by_cases hle : c ≤ hi
    · have h1 : rangeLen c hi step = rangeLen (c + step) hi step + 1 :=
        rangeLen_succ hstep hle
      have hrw : c + step * (rangeLen c hi step : Int) =
          (c + step) + step * (rangeLen (c + step) hi step : Int) := by
        rw [h1]
        push_cast
        ring
      have hnn : (0 : Int) ≤ step * (rangeLen (c + step) hi step : Int) :=
        mul_nonneg (le_of_lt hstep) (Int.natCast_nonneg _)
      have hexit' : (c + step) + step * (rangeLen (c + step) hi step : Int) ≤
          i32Max := by
        rw [← hrw]
        exact hexit
      have hcsmin : i32Min ≤ c + step := by linarith
      have hcsmax : c + step ≤ i32Max := by linarith
      rw [rangeValsWrap.eq_def, rangeVals.eq_def, if_pos hle, if_pos hle]
      show (rangeValsWrap fuel (wrap32 (c + step)) hi step).map _ =
        (rangeVals fuel (c + step) hi step).map _
      rw [wrap32_eq_self hcsmin hcsmax, ih (c + step) hcsmin hexit']
    · rw [rangeValsWrap_of_not_le hle, rangeVals_of_not_le hle]

/-- Packaged per-argument form: a terminating range shape plus the
`argInBounds` facts give model agreement for every fuel. -/
theorem rangeValsWrap_eq_of_ok {lo hi step : Int} (hterm : 0 < step ∨ hi < lo)
    (hlo : i32Min ≤ lo)
    (hdisj : hi < lo ∨ lo + step * (rangeLen lo hi step : Int) ≤ i32Max) :
    ∀ fuel, rangeValsWrap fuel lo hi step = rangeVals fuel lo hi step := by
  intro fuel
  by_cases hle : lo ≤ hi
  · have hstep : 0 < step := by
      rcases hterm with h | h
      · exact h
      · omega
    have hexit : lo + step * (rangeLen lo hi step : Int) ≤ i32Max := by
      rcases hdisj with h | h
      · omega
      · exact h
    exact rangeValsWrap_eq hi step hstep fuel lo hlo hexit
  · rw [rangeValsWrap_of_not_le hle, rangeVals_of_not_le hle]

/-- With `hi = i32Max` and `step = 1` the wrapping loop never exits: every
wrapped cursor value is `≤ i32Max`, so each iteration re-enters the loop.
This is the release-build behavior of `Range{from:i32::MAX-1, to:i32::MAX,
step:1}`; a debug build panics at the overflowing `c += step` instead — in
neither build mode does the expansion produce a result. -/
theorem rangeValsWrap_none_at_max :
    ∀ (fuel : Nat) (c : Int), c ≤ i32Max →
      rangeValsWrap fuel c i32Max 1 = none := by
  intro fuel
  induction fuel with
  | zero =>
    intro c hle
    rw [rangeValsWrap.eq_def, if_pos hle]
  | succ fuel ih =>
    intro c hle
    rw [rangeValsWrap.eq_def, if_pos hle]
    show (rangeValsWrap fuel (wrap32 (c + 1)) i32Max 1).map _ = none
    rw [ih (wrap32 (c + 1)) (wrap32_le_max (c + 1))]
    rfl

/-! ## Sequencing and concat-map lemmas -/

theorem seqConcat_map_some {α β : Type} (f : α → Option (List β))
    (g : α → List β) :
    ∀ xs : List α, (∀ x ∈ xs, f x = some (g x)) →
      seqConcat (xs.map f) = some (concatMap g xs) := by
  intro xs
  induction xs with
  | nil => intro _; rfl
  | cons x xs ih =>
    intro h
    rw [List.map_cons, seqConcat, h x (by simp),
      ih (fun y hy => h y (by simp [hy]))]
    rfl

theorem concatMap_map {α β γ : Type} (g : α → List β) (h : β → γ) :
    ∀ xs : List α, (concatMap g xs).map h = concatMap (fun x => (g x).map h) xs := by
  intro xs
  induction xs with
  | nil => rfl
  | cons x xs ih => rw [concatMap, List.map_append, ih, concatMap]

theorem concatMap_congr {α β : Type} {f g : α → List β} :
    ∀ {xs : List α}, (∀ x ∈ xs, f x = g x) → concatMap f xs = concatMap g xs := by
  intro xs
  induction xs with
  | nil => intro _; rfl
  | cons x xs ih =>
    intro h
    rw [concatMap, concatMap, h x (by simp), ih (fun y hy => h y (by simp [hy]))]

theorem concatMap_length_const {α β : Type} {g : α → List β} {k : Nat} :
    ∀ {xs : List α}, (∀ x ∈ xs, (g x).length = k) →
      (concatMap g xs).length = xs.length * k := by
  intro xs
  induction xs with
  | nil => intro _; simp [concatMap]
  | cons x xs ih =>
    intro h
    rw [concatMap, List.length_append, h x (by simp),
      ih (fun y hy => h y (by simp [hy])), List.length_cons]
    ring

/-! ## Master refinement lemma for the expander -/

/-- When every range argument terminates (`rangesOk`) and the fuel covers
every range loop (`needFuel`), `p` terminates and produces exactly the
`expSpec` shape with the accumulated tokens and name prepended. -/
theorem p_spec {fuel : Nat} :
    ∀ args : List Argument, rangesOk args = true → needFuel args ≤ fuel →
      ∀ (so_far : List String) (so_far_name : String),
        p fuel args so_far so_far_name =
          some ((expSpec args).map fun pr =>
            (so_far ++ pr.1, so_far_name ++ pr.2)) := by
  intro args
  induction args with
  | nil =>
    intro _ _ so_far so_far_name
    simp [p, expSpec, String.append_empty]
  | cons a rest ih =>
    intro hok hf so_far so_far_name
    cases a with
    | static s =>
      have hok' : rangesOk rest = true := by simpa [rangesOk] using hok
      have hf' : needFuel rest ≤ fuel := by
        simp only [needFuel] at hf
        omega
      rw [p, ih hok' hf' (so_far ++ [s]) so_far_name, expSpec]
      congr 1
      rw [List.map_map]
      apply List.map_congr_left
      intro pr _
      simp [List.append_assoc]
    | choice opts =>
      have hok' : rangesOk rest = true := by simpa [rangesOk] using hok
      have hf' : needFuel rest ≤ fuel := by
        simp only [needFuel] at hf
        omega
      rw [p, seqConcat_map_some _
          (fun opt => (expSpec rest).map fun pr =>
            ((so_far ++ [opt]) ++ pr.1, (((so_far_name ++ " ") ++ opt) ++ pr.2)))
          opts
          (fun opt _ => ih hok' hf' (so_far ++ [opt]) ((so_far_name ++ " ") ++ opt)),
        expSpec, concatMap_map]
      congr 1
      apply concatMap_congr
      intro opt _
      rw [List.map_map]
      apply List.map_congr_left
      intro pr _
      simp [List.append_assoc, String.append_assoc]
    | range r =>
      cases r with
      | int lo hi step pre =>
        have hok' : rangesOk rest = true := by
          simp only [rangesOk, Bool.and_eq_true] at hok
          exact hok.2
        have hterm : 0 < step ∨ hi < lo := by
          simp only [rangesOk, Bool.and_eq_true, Bool.or_eq_true,
            decide_eq_true_eq] at hok
          exact hok.1
        have hf' : needFuel rest ≤ fuel := by
          simp only [needFuel] at hf
          omega
        have hfr : rangeLen lo hi step ≤ fuel := by
          simp only [needFuel, argFuel] at hf
          omega
        rw [p, rangeVals_eq_of_ok hterm hfr]
        show seqConcat ((rangeList lo hi step).map fun c =>
            p fuel rest (so_far ++ [pre.getD "" ++ toString c])
              ((so_far_name ++ " ") ++ toString c)) = _
        rw [seqConcat_map_some _
            (fun c => (expSpec rest).map fun pr =>
              ((so_far ++ [pre.getD "" ++ toString c]) ++ pr.1,
                (((so_far_name ++ " ") ++ toString c) ++ pr.2)))
            (rangeList lo hi step)
            (fun c _ => ih hok' hf' (so_far ++ [pre.getD "" ++ toString c])
              ((so_far_name ++ " ") ++ toString c)),
          expSpec, concatMap_map]
        congr 1
        apply concatMap_congr
        intro c _
        rw [List.map_map]
        apply List.map_congr_left
        intro pr _
        simp [List.append_assoc, String.append_assoc]

/-- Under the terminating-range and in-bounds hypotheses, the `i32`-wrapping
expander agrees with the unbounded-integer expander at every fuel: no
addition the program performs overflows, so on these tasks the embedding is
exact for both debug and release builds. -/
theorem pWrap_eq_p {fuel : Nat} :
    ∀ args : List Argument, rangesOk args = true → argsInBounds args = true →
      ∀ (so_far : List String) (so_far_name : String),
        pWrap fuel args so_far so_far_name = p fuel args so_far so_far_name := by
  intro args
  induction args with
  | nil =>
    intro _ _ so_far so_far_name
    rfl
  | cons a rest ih =>
    intro hok hbd so_far so_far_name
    cases a with
    | static s =>
      have hok' : rangesOk rest = true := by simpa [rangesOk] using hok
      have hbd' : argsInBounds rest = true := by
        simp only [argsInBounds, Bool.and_eq_true] at hbd
        exact hbd.2
      rw [pWrap, p, ih hok' hbd' (so_far ++ [s]) so_far_name]
    | choice opts =>
      have hok' : rangesOk rest = true := by simpa [rangesOk] using hok
      have hbd' : argsInBounds rest = true := by
        simp only [argsInBounds, Bool.and_eq_true] at hbd
        exact hbd.2
      rw [pWrap, p]
      exact congrArg seqConcat (List.map_congr_left fun opt _ =>
        ih hok' hbd' (so_far ++ [opt]) ((so_far_name ++ " ") ++ opt))
    | range r =>
      cases r with
      | int lo hi step pre =>
        have hok' : rangesOk rest = true := by
          simp only [rangesOk, Bool.and_eq_true] at hok
          exact hok.2
        have hterm : 0 < step ∨ hi < lo := by
          simp only [rangesOk, Bool.and_eq_true, Bool.or_eq_true,
            decide_eq_true_eq] at hok
          exact hok.1
        have hbd1 : argInBounds (.range (.int lo hi step pre)) = true := by
          simp only [argsInBounds, Bool.and_eq_true] at hbd
          exact hbd.1
        have hbd' : argsInBounds rest = true := by
          simp only [argsInBounds, Bool.and_eq_true] at hbd
          exact hbd.2
        simp only [argInBounds, inI32, Bool.and_eq_true, Bool.or_eq_true,
          decide_eq_true_eq] at hbd1
        obtain ⟨⟨⟨hlo, -⟩, -⟩, hdisj⟩ := hbd1
        rw [pWrap, rangeValsWrap_eq_of_ok hterm hlo.1 hdisj fuel, p]
        cases hv : rangeVals fuel lo hi step with
        | none => rfl
        | some vs =>
          exact congrArg seqConcat (List.map_congr_left fun c _ =>
            ih hok' hbd' (so_far ++ [pre.getD "" ++ toString c])
              ((so_far_name ++ " ") ++ toString c))

/-- Task-level model agreement: within bounds, the `i32`-wrapping expansion
and the unbounded-integer expansion coincide for every fuel. -/
theorem to_concreate_tasksWrap_eq (t : Task) (name : String) (fuel : Nat)
    (hok : rangesOk t.args = true) (hbd : argsInBounds t.args = true) :
    t.to_concreate_tasksWrap name fuel = t.to_concreate_tasks name fuel := by
  rw [Task.to_concreate_tasksWrap, Task.to_concreate_tasks,
    pWrap_eq_p t.args hok hbd [] name]

/-! ## Counting and static-only lemmas -/

theorem expSpec_length : ∀ args : List Argument,
    (expSpec args).length = taskCard args := by
  intro args
  induction args with
  | nil => rfl
  | cons a rest ih =>
    cases a with
    | static s =>
      rw [expSpec, List.length_map, ih, taskCard, cardinality, Nat.one_mul]
    | choice opts =>
      have hlen : ∀ opt ∈ opts,
          ((expSpec rest).map fun pr =>
            (opt :: pr.1, (" " ++ opt) ++ pr.2)).length = taskCard rest := by
        intro opt _
        rw [List.length_map, ih]
      rw [expSpec, concatMap_length_const hlen, taskCard, cardinality]
    | range r =>
      cases r with
      | int lo hi step pre =>
        have hlen : ∀ c ∈ rangeList lo hi step,
            ((expSpec rest).map fun pr =>
              ((pre.getD "" ++ toString c) :: pr.1,
                (" " ++ toString c) ++ pr.2)).length = taskCard rest := by
          intro c _
          rw [List.length_map, ih]
        rw [expSpec, concatMap_length_const hlen, rangeList_length, taskCard,
          cardinality]

theorem expSpec_allStatic : ∀ {args : List Argument}, allStatic args = true →
    expSpec args = [(staticVals args, "")] := by
  intro args
  induction args with
  | nil => intro _; rfl
  | cons a rest ih =>
    cases a with
    | static s =>
      intro h
      rw [expSpec, ih (by simpa [allStatic] using h), staticVals]
      rfl
    | choice opts =>
      intro h
      simp [allStatic] at h
    | range r =>
      cases r with
      | int lo hi step pre =>
        intro h
        simp [allStatic] at h

/-! ## Divergence of a nonpositive-step range -/

/-- With a nonpositive step and `lo ≤ hi`, the source loop at main.rs lines
80-95 never exits, so `p` diverges: `none` for every fuel. -/
theorem p_none_of_bad_range {lo hi step : Int} (pre : Option String)
    (rest : List Argument) (hstep : step ≤ 0) (hle : lo ≤ hi) (fuel : Nat)
    (so_far : List String) (so_far_name : String) :
    p fuel (.range (.int lo hi step pre) :: rest) so_far so_far_name = none := by
  rw [p, rangeVals_none hstep fuel lo hi hle]

/-- Task-level version of `p_none_of_bad_range`. -/
theorem to_concreate_tasks_none_of_bad_range {lo hi step : Int}
    (command name : String) (pre : Option String) (rest : List Argument)
    (hstep : step ≤ 0) (hle : lo ≤ hi) (fuel : Nat) :
    Task.to_concreate_tasks ⟨command, .range (.int lo hi step pre) :: rest⟩
      name fuel = none := by
  rw [Task.to_concreate_tasks, p_none_of_bad_range pre rest hstep hle fuel [] name]
  rfl

/-! ## Work-queue interleaving lemmas -/

theorem concatMap_set_getD (c : Cmd) :
    ∀ (ps : List (List Cmd)) (i : Nat), i < ps.length →
      (↑(concatMap id (ps.set i (ps.getD i [] ++ [c]))) : Multiset Cmd) =
        ↑(concatMap id ps) + {c} := by
  intro ps
  induction ps with
  | nil =>
    intro i h
    simp at h
  | cons w ps ih =>
    intro i h
    cases i with
    | zero =>
      simp only [List.getD_cons_zero, List.set_cons_zero, concatMap, id_eq]
      simp only [← Multiset.coe_add, ← Multiset.coe_singleton]
      abel
    | succ i =>
      simp only [List.getD_cons_succ, List.set_cons_succ, concatMap, id_eq]
      simp only [← Multiset.coe_add]
      rw [ih i (by simpa using h)]
      abel

theorem poolStep_invariant (s : PoolState) (i : Nat) :
    (↑(poolStep s i).queue + ↑(concatMap id (poolStep s i).popped) :
      Multiset Cmd) = ↑s.queue + ↑(concatMap id s.popped) := by
  rcases s with ⟨queue, popped⟩
  cases queue with
  | nil => rfl
  | cons c rest =>
    have hstep : poolStep ⟨c :: rest, popped⟩ i =
        if i < popped.length then
          ⟨rest, popped.set i (popped.getD i [] ++ [c])⟩
        else ⟨c :: rest, popped⟩ := rfl
    rw [hstep]
    by_cases h : i < popped.length
    · rw [if_pos h]
      show (↑rest + ↑(concatMap id (popped.set i (popped.getD i [] ++ [c]))) :
        Multiset Cmd) = ↑(c :: rest) + ↑(concatMap id popped)
      rw [concatMap_set_getD c popped i h, ← Multiset.cons_coe,
        ← Multiset.singleton_add]
      abel
    · rw [if_neg h]

theorem runPool_invariant :
    ∀ (sched : List Nat) (s : PoolState),
      (↑(runPool s sched).queue + ↑(concatMap id (runPool s sched).popped) :
        Multiset Cmd) = ↑s.queue + ↑(concatMap id s.popped) := by
  intro sched
  induction sched with
  | nil => intro s; rfl
  | cons i sched ih =>
    intro s
    have h1 : runPool s (i :: sched) = runPool (poolStep s i) sched := rfl
    rw [h1, ih (poolStep s i), poolStep_invariant]

theorem concatMap_id_replicate (n : Nat) :
    concatMap id (List.replicate n ([] : List Cmd)) = [] := by
  induction n with
  | zero => rfl
  | succ n ih => rw [List.replicate_succ, concatMap, ih]; rfl

/-! ## Claim theorems -/

/-- C1 (counterexample): the claim as stated fails on the code.  For the task
with the single argument `Range{from:0, to:1, step:0}` the claimed cardinality
product is `0` (`taskCard` evaluates to `0`), so the claim predicts an
expansion with zero invocations; the code instead never terminates (the
expansion returns `none` for every fuel), producing no invocation count at
all. -/
theorem C1_counterexample :
    ¬ expandsToCount ⟨"echo", [.range (.int 0 1 0 none)]⟩ "t"
        (taskCard [.range (.int 0 1 0 none)]) := by
  rintro ⟨fuel, l, heq, -⟩
  rw [to_concreate_tasks_none_of_bad_range "echo" "t" none []
    (by decide) (by decide) fuel] at heq
  exact Option.noConfusion heq

/-- C1 (amended): for every Task all of whose integer Range arguments
terminate (`step > 0` or `to < from` — otherwise the code diverges, see C3)
and stay within `i32` (fields representable and no loop addition exceeding
`i32::MAX`, so the embedding is exact in both build modes: the `i32`-wrapping
model and the unbounded model agree), the number of Concrete Invocations
equals the product over the Arguments of the cardinalities (`Static → 1`,
`Choice → len(values)`, `Range → floor((to−from)/step)+1` when
`step>0 ∧ from≤to`, else `0`); and a Task with only Static arguments yields
exactly one invocation whose tokens are the literal argument values in
order. -/
theorem C1_count_product (t : Task) (name : String) (fuel : Nat)
    (hok : rangesOk t.args = true) (hbd : argsInBounds t.args = true)
    (hf : needFuel t.args ≤ fuel) :
    ∃ l, t.to_concreate_tasksWrap name fuel = some l ∧
      t.to_concreate_tasks name fuel = some l ∧
      l.length = taskCard t.args ∧
      (allStatic t.args = true → l = [⟨t.command, staticVals t.args, name⟩]) := by
  refine ⟨(expSpec t.args).map fun pr => ⟨t.command, pr.1, name ++ pr.2⟩,
    ?_, ?_, ?_, ?_⟩
  · rw [to_concreate_tasksWrap_eq t name fuel hok hbd,
      Task.to_concreate_tasks, p_spec t.args hok hf [] name]
    simp [List.map_map]
  · rw [Task.to_concreate_tasks, p_spec t.args hok hf [] name]
    simp [List.map_map]
  · rw [List.length_map, expSpec_length]
  · intro hs
    rw [expSpec_allStatic hs]
    simp [String.append_empty]

/-- Witness for C1: a task with one Static, one Choice of two and the range
`0..=10` step `3` (4 values) expands to `1 * 2 * 4 = 8` invocations. -/
theorem C1_count_product_witness :
    rangesOk [.static "a", .choice ["x", "y"], .range (.int 0 10 3 none)] = true ∧
    argsInBounds [.static "a", .choice ["x", "y"],
      .range (.int 0 10 3 none)] = true ∧
    needFuel [.static "a", .choice ["x", "y"], .range (.int 0 10 3 none)] ≤ 4 ∧
    ∃ l, Task.to_concreate_tasksWrap
        ⟨"echo", [.static "a", .choice ["x", "y"], .range (.int 0 10 3 none)]⟩
        "t" 4 = some l ∧
      Task.to_concreate_tasks
        ⟨"echo", [.static "a", .choice ["x", "y"], .range (.int 0 10 3 none)]⟩
        "t" 4 = some l ∧
      l.length = taskCard [.static "a", .choice ["x", "y"],
        .range (.int 0 10 3 none)] ∧
      (allStatic [.static "a", .choice ["x", "y"],
          .range (.int 0 10 3 none)] = true →
        l = [⟨"echo", staticVals [.static "a", .choice ["x", "y"],
          .range (.int 0 10 3 none)], "t"⟩]) :=
  ⟨by decide, by decide, by decide,
    C1_count_product ⟨"echo", [.static "a", .choice ["x", "y"],
      .range (.int 0 10 3 none)]⟩ "t" 4 (by decide) (by decide) (by decide)⟩

/-- C2 (counterexample): the claim as stated fails on the code.  For the task
named `"t"` with arguments `[Static "x", Range{from:1, to:1, step:1,
prefix:"p"}]` the code produces the single invocation with argv tokens
`["x", "p1"]` and display name `"t 1"`: the Static token `"x"` and the range
prefix `"p"` are absent from the display name, while the claim demands
`"t x p1"`. -/
theorem C2_counterexample :
    Task.to_concreate_tasks
        ⟨"echo", [.static "x", .range (.int 1 1 1 (some "p"))]⟩ "t" 5 =
      some [⟨"echo", ["x", "p1"], "t 1"⟩] ∧
    ("t 1" : String) ≠ (("t" ++ " ") ++ "x" ++ " ") ++ "p1" := by
  constructor
  · decide
  · decide

/-- C2 (amended): for every Task with terminating, `i32`-bounded ranges (so
that the unbounded embedding agrees with the `i32`-wrapping model and with
the program in both build modes — first conjunct) and enough fuel, each
Concrete Invocation's display name is the Task name concatenated with the
selected tokens of the `Choice` and `Range` arguments only — `Choice`
contributes its value, `Range` contributes the bare numeric rendering
without its optional prefix — space-separated, in argument order; `Static`
arguments contribute to the argv tokens but never to the display name.
This is exactly the `expSpec` shape. -/
theorem C2_display_name (t : Task) (name : String) (fuel : Nat)
    (hok : rangesOk t.args = true) (hbd : argsInBounds t.args = true)
    (hf : needFuel t.args ≤ fuel) :
    t.to_concreate_tasksWrap name fuel = t.to_concreate_tasks name fuel ∧
    t.to_concreate_tasks name fuel =
      some ((expSpec t.args).map fun pr => ⟨t.command, pr.1, name ++ pr.2⟩) := by
  refine ⟨to_concreate_tasksWrap_eq t name fuel hok hbd, ?_⟩
  rw [Task.to_concreate_tasks, p_spec t.args hok hf [] name]
  simp [List.map_map]

/-- Witness for C2 (amended), at a task with a Static, a Choice and a
prefixed Range argument. -/
theorem C2_display_name_witness :
    rangesOk [.static "x", .choice ["a"], .range (.int 1 2 1 (some "p"))] = true ∧
    argsInBounds [.static "x", .choice ["a"],
      .range (.int 1 2 1 (some "p"))] = true ∧
    needFuel [.static "x", .choice ["a"], .range (.int 1 2 1 (some "p"))] ≤ 5 ∧
    (Task.to_concreate_tasksWrap
        ⟨"echo", [.static "x", .choice ["a"], .range (.int 1 2 1 (some "p"))]⟩
        "t" 5 =
      Task.to_concreate_tasks
        ⟨"echo", [.static "x", .choice ["a"], .range (.int 1 2 1 (some "p"))]⟩
        "t" 5 ∧
    Task.to_concreate_tasks
        ⟨"echo", [.static "x", .choice ["a"], .range (.int 1 2 1 (some "p"))]⟩
        "t" 5 =
      some ((expSpec [.static "x", .choice ["a"],
        .range (.int 1 2 1 (some "p"))]).map fun pr =>
          ⟨"echo", pr.1, "t" ++ pr.2⟩)) :=
  ⟨by decide, by decide, by decide,
    C2_display_name ⟨"echo", [.static "x", .choice ["a"],
      .range (.int 1 2 1 (some "p"))]⟩ "t" 5 (by decide) (by decide) (by decide)⟩

/-- C3: the spec mandates rejecting a Range with nonpositive step and
`from ≤ to` at expansion time with a descriptive error; the code instead
loops forever (main.rs lines 80-95: `while c <= to { ...; c += step }` with
`step ≤ 0` never exits).  In the embedding the expansion returns `none` for
every fuel — it never terminates, and the `Option`-shaped result of the
source (a plain `Vec`, no error channel) shows no rejection path exists.
This theorem documents the divergence at the code level. -/
theorem C3_bad_range_diverges (command name : String) (lo hi step : Int)
    (pre : Option String) (rest : List Argument) (fuel : Nat)
    (hstep : step ≤ 0) (hle : lo ≤ hi) :
    Task.to_concreate_tasks ⟨command, .range (.int lo hi step pre) :: rest⟩
      name fuel = none :=
  to_concreate_tasks_none_of_bad_range command name pre rest hstep hle fuel

/-- Witness for C3 at the concrete misconfigured range `{from:0,to:1,step:0}`. -/
theorem C3_bad_range_diverges_witness :
    ((0 : Int) ≤ 0) ∧ ((0 : Int) ≤ 1) ∧
    Task.to_concreate_tasks ⟨"echo", [.range (.int 0 1 0 none)]⟩ "t" 9 = none :=
  ⟨by decide, by decide,
    C3_bad_range_diverges "echo" "t" 0 1 0 none [] 9 (by decide) (by decide)⟩

/-- C4: the spec mandates that a spawn/wait failure is captured by the owning
worker, recorded distinctly, and that the worker proceeds to the next queued
invocation.  The code instead calls `.unwrap()` on `command.spawn()` and
`child.wait()` (main.rs lines 258, 260), so the worker thread panics: in the
model, a queue whose first invocation fails to spawn makes the worker return
the bare error with no failure record and without ever running the next
invocation — while the same queue without the failing entry is fully
processed and recorded. -/
theorem C4_spawn_failure_kills_worker :
    workerRun
        (fun c => if c.program = "missing" then
          Except.error "No such file or directory" else Except.ok 7)
        [⟨"missing", [], "t bad"⟩, ⟨"echo", ["a"], "t good"⟩] [] =
      Except.error "No such file or directory" ∧
    workerRun
        (fun c => if c.program = "missing" then
          Except.error "No such file or directory" else Except.ok 7)
        [⟨"echo", ["a"], "t good"⟩] [] =
      Except.ok [("t good", 7)] :=
  ⟨rfl, rfl⟩

/-- C5: the task `{command:"echo", args:[Choice(["a","b"]),
Range{from:1,to:3,step:1}]}` expands, for any task name, to exactly 6
invocations whose display names carry the suffixes `" a 1"`, `" a 2"`,
`" a 3"`, `" b 1"`, `" b 2"`, `" b 3"` in that exact depth-first order. -/
theorem C5_example_expansion (name : String) (fuel : Nat) (hf : 3 ≤ fuel) :
    Task.to_concreate_tasks
        ⟨"echo", [.choice ["a", "b"], .range (.int 1 3 1 none)]⟩ name fuel =
      some [⟨"echo", ["a", "1"], name ++ " a 1"⟩,
            ⟨"echo", ["a", "2"], name ++ " a 2"⟩,
            ⟨"echo", ["a", "3"], name ++ " a 3"⟩,
            ⟨"echo", ["b", "1"], name ++ " b 1"⟩,
            ⟨"echo", ["b", "2"], name ++ " b 2"⟩,
            ⟨"echo", ["b", "3"], name ++ " b 3"⟩] := by
  rw [Task.to_concreate_tasks,
    p_spec [.choice ["a", "b"], .range (.int 1 3 1 none)] (by decide)
      (le_trans (by decide) hf) [] name]
  have hspec : expSpec [.choice ["a", "b"], .range (.int 1 3 1 none)] =
      [(["a", "1"], " a 1"), (["a", "2"], " a 2"), (["a", "3"], " a 3"),
       (["b", "1"], " b 1"), (["b", "2"], " b 2"), (["b", "3"], " b 3")] := by
    decide
  rw [hspec]
  simp

/-- Witness for C5 at fuel 3 and a concrete task name. -/
theorem C5_example_expansion_witness :
    3 ≤ 3 ∧
    Task.to_concreate_tasks
        ⟨"echo", [.choice ["a", "b"], .range (.int 1 3 1 none)]⟩ "nm" 3 =
      some [⟨"echo", ["a", "1"], "nm" ++ " a 1"⟩,
            ⟨"echo", ["a", "2"], "nm" ++ " a 2"⟩,
            ⟨"echo", ["a", "3"], "nm" ++ " a 3"⟩,
            ⟨"echo", ["b", "1"], "nm" ++ " b 1"⟩,
            ⟨"echo", ["b", "2"], "nm" ++ " b 2"⟩,
            ⟨"echo", ["b", "3"], "nm" ++ " b 3"⟩] :=
  ⟨by decide, C5_example_expansion "nm" 3 (by decide)⟩

/-- C6: the integer range `{from:0, to:10, step:3}` enumerates exactly
`[0, 3, 6, 9]` — 4 values; the inclusive bound 10 is unreachable by steps of
3 from 0 and is not emitted. -/
theorem C6_range_enumeration (fuel : Nat) (hf : 4 ≤ fuel) :
    rangeVals fuel 0 10 3 = some [0, 3, 6, 9] := by
  rw [rangeVals_eq (by decide : (0 : Int) < 3) fuel 0 (le_trans (by decide) hf)]
  decide

/-- Witness for C6 at fuel 4. -/
theorem C6_range_enumeration_witness :
    4 ≤ 4 ∧ rangeVals 4 0 10 3 = some [0, 3, 6, 9] :=
  ⟨by decide, C6_range_enumeration 4 (by decide)⟩

/-- C7: the effective worker-pool size (main.rs lines 207-210) equals
`min(requested_or_default, total_invocations)`, where the default with no
configured worker count is half the number of available processing units
rounded down (`num_cpus::get() / 2` in `Nat` floor division), and the number
of spawned workers (the `for i in 0..n` loop spawns exactly `n` threads)
never exceeds the number of queued invocations. -/
theorem C7_pool_size (num_threads : Option Nat) (numCpus queueLen : Nat) :
    workerCount num_threads numCpus queueLen =
      min (num_threads.getD (numCpus / 2)) queueLen ∧
    workerCount none numCpus queueLen = min (numCpus / 2) queueLen ∧
    workerCount num_threads numCpus queueLen ≤ queueLen :=
  ⟨rfl, rfl, Nat.min_le_right _ _⟩

/-- C8 (counterexample): the claim as stated fails on the code.  The task
with the single argument `Range{from:2147483646, to:2147483647, step:1}`
satisfies the spec's Range-step invariant (`rangesOk`, first conjunct), yet
the real `i32` expansion produces no list at all — `c += step` overflows at
`i32::MAX`, so a release build wraps to `i32::MIN ≤ to` and loops forever
(the `i32`-wrapping model returns `none` for every fuel) and a debug build
panics.  "Running expand twice yields bit-identical lists" is therefore
false there: no run yields a list. -/
theorem C8_counterexample :
    rangesOk [.range (.int 2147483646 i32Max 1 none)] = true ∧
    ¬ expandsWrap ⟨"echo", [.range (.int 2147483646 i32Max 1 none)]⟩ "t" := by
  refine ⟨by decide, ?_⟩
  rintro ⟨fuel, l, heq⟩
  have hnone : pWrap fuel [.range (.int 2147483646 i32Max 1 none)] [] "t" =
      none := by
    rw [pWrap, rangeValsWrap_none_at_max fuel 2147483646 (by decide)]
  rw [Task.to_concreate_tasksWrap, hnone] at heq
  exact Option.noConfusion heq

/-- C8 (amended): expansion is a pure, deterministic function of the Task
and its name alone for every Task whose ranges satisfy the Range-step
invariant and whose loop arithmetic stays within `i32`: a single result
list is returned by every sufficiently fueled run of both the
`i32`-wrapping model and the unbounded model, so running the expansion
twice yields bit-identical ordered lists, with no dependence on
environment, time, or hidden state (the embedding is a function of `t`,
`name`, `fuel` only, mirroring that the source reads nothing but `&self`
and `name`). -/
theorem C8_expansion_deterministic (t : Task) (name : String)
    (hok : rangesOk t.args = true) (hbd : argsInBounds t.args = true) :
    ∃ l, ∀ fuel, needFuel t.args ≤ fuel →
      t.to_concreate_tasksWrap name fuel = some l ∧
      t.to_concreate_tasks name fuel = some l := by
  refine ⟨(expSpec t.args).map fun pr => ⟨t.command, pr.1, name ++ pr.2⟩, ?_⟩
  intro fuel hf
  have h2 : t.to_concreate_tasks name fuel =
      some ((expSpec t.args).map fun pr => ⟨t.command, pr.1, name ++ pr.2⟩) := by
    rw [Task.to_concreate_tasks, p_spec t.args hok hf [] name]
    simp [List.map_map]
  exact ⟨(to_concreate_tasksWrap_eq t name fuel hok hbd).trans h2, h2⟩

/-- Witness for C8. -/
theorem C8_expansion_deterministic_witness :
    rangesOk [.choice ["a", "b"], .range (.int 0 10 3 none)] = true ∧
    argsInBounds [.choice ["a", "b"], .range (.int 0 10 3 none)] = true ∧
    ∃ l, ∀ fuel,
      needFuel [.choice ["a", "b"], .range (.int 0 10 3 none)] ≤ fuel →
      Task.to_concreate_tasksWrap
        ⟨"echo", [.choice ["a", "b"], .range (.int 0 10 3 none)]⟩ "t" fuel =
          some l ∧
      Task.to_concreate_tasks
        ⟨"echo", [.choice ["a", "b"], .range (.int 0 10 3 none)]⟩ "t" fuel =
          some l :=
  ⟨by decide, by decide,
    C8_expansion_deterministic
      ⟨"echo", [.choice ["a", "b"], .range (.int 0 10 3 none)]⟩ "t"
      (by decide) (by decide)⟩

/-- C9: for any queue of invocations drained by any number of workers under
any interleaving of atomic mutex-guarded pops (and no insertions after the
pool starts), once the queue is empty the multiset of items popped across
all workers equals the original queue content — every item popped exactly
once, none duplicated, none lost. -/
theorem C9_exactly_once_drain (q : List Cmd) (n : Nat) (sched : List Nat)
    (hdrained : (runPool (initPool q n) sched).queue = []) :
    (↑(concatMap id (runPool (initPool q n) sched).popped) : Multiset Cmd) =
      ↑q := by
  have hinv := runPool_invariant sched (initPool q n)
  rw [hdrained] at hinv
  rw [show (initPool q n).queue = q from rfl,
    show (initPool q n).popped = List.replicate n [] from rfl,
    concatMap_id_replicate] at hinv
  simpa using hinv

/-- Witness for C9: two workers drain a two-element queue under the
interleaving `[0, 1, 0]`. -/
theorem C9_exactly_once_drain_witness :
    (runPool (initPool [⟨"echo", ["a"], "t a"⟩, ⟨"echo", ["b"], "t b"⟩] 2)
      [0, 1, 0]).queue = [] ∧
    (↑(concatMap id (runPool
        (initPool [⟨"echo", ["a"], "t a"⟩, ⟨"echo", ["b"], "t b"⟩] 2)
        [0, 1, 0]).popped) : Multiset Cmd) =
      ↑[(⟨"echo", ["a"], "t a"⟩ : Cmd), ⟨"echo", ["b"], "t b"⟩] :=
  ⟨by decide,
    C9_exactly_once_drain [⟨"echo", ["a"], "t a"⟩, ⟨"echo", ["b"], "t b"⟩] 2
      [0, 1, 0] (by decide)⟩

/-- C10: a Task with an empty argument list expands to exactly one Concrete
Invocation with an empty argv token list and a display name equal to the
Task name (main.rs lines 51-54 and 124). -/
theorem C10_empty_args (command name : String) (fuel : Nat) :
    Task.to_concreate_tasks ⟨command, []⟩ name fuel =
      some [⟨command, [], name⟩] := rfl

end PRun
